import Mathlib

/-!
Verification development for the link_and_image_extractor repository.

The embedding models `src/link_extractor.py`:
* `extract_links`, `get_links` — the Link Source pipeline (regex extraction,
  relative-reference resolution, same-host filtering);
* `depth_first_seach` (name kept with the source's typo), `breadth_first_search`,
  `search` — the traversal variants.

Modelling conventions:
* Python strings are Lean `String`; machinery works over `List Char` with plain
  structural recursion so every definition evaluates inside the kernel.
* `download_page` failures (the `URLError` it raises) are modelled by the page
  fetcher returning `none`; a raised Python exception is `Except.error`.
* The `while queue` loops are modelled with explicit fuel; a traversal outcome
  records the URLs printed so far and whether the loop finished, raised, or ran
  out of fuel.
-/

/-- URLs are opaque strings, as in the source. -/
abbrev URL := String

/-- Python exceptions that the source can raise.  `unknownStrategy` is named by
the specification only; it is included so that the spec's claimed error is
statable, and no definition in this file ever produces it. -/
inductive PyError where
  | urlError : PyError
  | typeError (msg : String) : PyError
  | unknownStrategy : PyError
deriving DecidableEq, Repr

/-- Page fetcher: `download_page` returns the page text, or raises `URLError`
(modelled as `none`). -/
abbrev Fetcher := URL → Option String

/-- Checks that the list starts with the given pattern (exact characters). -/
def listStartsWith : List Char → List Char → Bool
  | [], _ => true
  | _ :: _, [] => false
  | p :: ps, c :: cs => p == c && listStartsWith ps cs

/-- Splits a character list at the first occurrence of the (nonempty) pattern,
returning the part before it and the part after it. -/
def splitFirst (pat : List Char) : List Char → Option (List Char × List Char)
  | [] => none
  | c :: cs =>
    if listStartsWith pat (c :: cs) then some ([], (c :: cs).drop pat.length)
    else
      match splitFirst pat cs with
      | some (pre, post) => some (c :: pre, post)
      | none => none

/-- Checks that a candidate scheme string is a valid URL scheme, as
`urllib.parse` does: a letter followed by letters, digits, `+`, `-`, `.`. -/
def isSchemeChars : List Char → Bool
  | [] => false
  | c :: cs => c.isAlpha && cs.all (fun d => d.isAlphanum || d == '+' || d == '-' || d == '.')

/-- Splits `scheme://rest` into `(scheme, rest)` when the URL has a valid
scheme followed by `://`; `none` for scheme-less (relative or garbage) strings.
Models the scheme/netloc split of `urllib.parse.urlparse` for the URL shapes
this repository produces (a netloc, when present, follows `scheme://`). -/
def afterScheme (url : String) : Option (String × String) :=
  match splitFirst "://".data url.data with
  | none => none
  | some (pre, post) => if isSchemeChars pre then some (⟨pre⟩, ⟨post⟩) else none

/-- Suffix after the last occurrence of `sep`, or the whole list if absent. -/
def afterLast (sep : Char) (l : List Char) : List Char :=
  (l.reverse.takeWhile (fun c => c != sep)).reverse

/-- Prefix before the first occurrence of `sep`, or the whole list if absent. -/
def beforeFirst (sep : Char) (l : List Char) : List Char :=
  l.takeWhile (fun c => c != sep)

/-- Models `urllib.parse.urlparse(url).hostname`: the netloc is what follows
`scheme://` up to the first `/`, `?` or `#`; the hostname is the netloc with
any user-info (up to the last `@`) and port (after the first `:`) removed,
lower-cased, and `None` when empty. -/
def hostname (url : String) : Option String :=
  match afterScheme url with
  | none => none
  | some (_, rest) =>
    let netloc := rest.data.takeWhile (fun c => c != '/' && c != '?' && c != '#')
    let host := (beforeFirst ':' (afterLast '@' netloc)).map Char.toLower
    if host = [] then none else some ⟨host⟩

/-- Everything up to and including the last `/`, or empty if there is none —
how `urljoin` keeps the directory part of the base path. -/
def dropLastSegment (l : List Char) : List Char :=
  (l.reverse.dropWhile (fun c => c != '/')).reverse

/-- Models `urllib.parse.urljoin(base, url)` for the shapes arising here: an
empty reference yields the base; a reference with its own scheme (hence, in
this repository, its own netloc) is returned unchanged; otherwise the
reference is resolved against the base's directory (or against the base's
root when the reference starts with `/`).  Dot-segment normalisation and
query/fragment handling are not exercised by this repository. -/
def urljoin (base url : String) : String :=
  if url = "" then base
  else
    match afterScheme url with
    | some _ => url
    | none =>
      match afterScheme base with
      | some (scheme, rest) =>
        let netloc := rest.data.takeWhile (fun c => c != '/' && c != '?' && c != '#')
        let bpath := rest.data.drop netloc.length
        let pre := scheme.data ++ "://".data ++ netloc
        if listStartsWith "/".data url.data then ⟨pre ++ url.data⟩
        else ⟨pre ++ dropLastSegment bpath ++ url.data⟩
      | none =>
        if listStartsWith "/".data url.data then url
        else ⟨dropLastSegment base.data ++ url.data⟩

/-- Quote characters accepted by the link regex (`"` or `'`, char code 39). -/
def isQuoteChar (c : Char) : Bool := c == '"' || c.toNat == 39

/-- Case-insensitive literal match: the input starts with the pattern. -/
def matchesCI : List Char → List Char → Bool
  | [], _ => true
  | _ :: _, [] => false
  | p :: ps, c :: cs => p.toLower == c.toLower && matchesCI ps cs

/-- After `href=`: an opening quote, then the lazy capture `(.*?)` up to the
next quote of either kind (`.` does not cross a newline), then the closing
quote.  Returns the capture and the input after the closing quote. -/
def captureValue : List Char → Option (List Char × List Char)
  | [] => none
  | q :: cs =>
    if isQuoteChar q then
      let cap := cs.takeWhile (fun c => !isQuoteChar c && c != '\n')
      match cs.dropWhile (fun c => !isQuoteChar c && c != '\n') with
      | c :: after => if isQuoteChar c then some (cap, after) else none
      | [] => none
    else none

/-- Backtracking for the greedy `[^>]+` of `<a[^>]+href=["'](.*?)["']`: try the
run length `n`, `n-1`, ..., `1` (longest first, as a greedy group does) until
`href=` (case-insensitive) followed by a quoted value matches there. -/
def tryHref : Nat → List Char → Option (List Char × List Char)
  | 0, _ => none
  | n + 1, cs =>
    let tail := cs.drop (n + 1)
    if matchesCI "href=".data tail then
      match captureValue (tail.drop 5) with
      | some r => some r
      | none => tryHref n cs
    else tryHref n cs

/-- Attempts the regex body right after a case-insensitive `<a`: `cs` is the
input after the two tag characters; the greedy `[^>]+` can use at most the
maximal run of non-`>` characters. -/
def matchTag (cs : List Char) : Option (List Char × List Char) :=
  tryHref (cs.takeWhile (fun c => c != '>')).length cs

/-- Models `re.findall` of `<a[^>]+href=["'](.*?)["']` (IGNORECASE): scan left
to right, at each position try a match; on success emit the capture group and
resume after the match, otherwise advance one character.  `fuel` bounds the
scan; the callers pass the input length plus one, which always suffices
because every step consumes at least one character. -/
def findall : Nat → List Char → List (List Char)
  | 0, _ => []
  | _ + 1, [] => []
  | fuel + 1, c :: cs =>
    match cs with
    | a :: rest =>
      if c == '<' && a.toLower == 'a' then
        match matchTag rest with
        | some (cap, after) => cap :: findall fuel after
        | none => findall fuel cs
      else findall fuel cs
    | [] => []

/-- Embeds `extract_links` (src/link_extractor.py lines 53-71): a falsy page
(`None` or empty) yields `[]`; otherwise the regex captures are resolved with
`urljoin(page, link)` — against the page CONTENT, exactly as the source does,
not against the page's URL. -/
def extract_links (page : Option String) : List String :=
  match page with
  | none => []
  | some p =>
    if p = "" then []
    else ((findall (p.data.length + 1) p.data).map (fun l => (⟨l⟩ : String))).map
      (fun link => urljoin p link)

/-- Embeds `get_links` (src/link_extractor.py lines 74-100): compute the host
of `page_url`, download the page (a download failure raises `URLError`; there
is no try/except in the source, so the error propagates), extract links, and
if any were extracted return those on the same host — `or None` turns an
all-filtered-out list into `None`; an empty extracted list yields `[]`. -/
def get_links (fetch : Fetcher) (page_url : URL) : Except PyError (Option (List URL)) :=
  let host := hostname page_url
  match fetch page_url with
  | none => Except.error PyError.urlError
  | some page =>
    let links := extract_links (some page)
    if links = [] then Except.ok (some [])
    else
      let f := links.filter (fun link => decide (hostname link = host))
      Except.ok (if f = [] then none else some f)

/-- Embeds `filter_none` (src/link_extractor.py lines 18-33) as applied at
line 134: building the generator calls `iter` on its argument at once, so a
`None` argument raises `TypeError` immediately, while a list of strings (which
never contains `None` elements) is enumerated unchanged. -/
def filter_none : Option (List URL) → Except PyError (List URL)
  | none => Except.error (PyError.typeError "argument of type NoneType is not iterable")
  | some l => Except.ok l

/-- Result of running a traversal loop with a given amount of fuel: the list
of URLs printed so far, together with how the loop ended — `done` when the
queue emptied, `crashed` when a Python exception escaped the loop, `fuelOut`
when the modelling fuel ran out before either. -/
inductive TraverseOutcome where
  | done (emitted : List URL) : TraverseOutcome
  | crashed (emitted : List URL) (e : PyError) : TraverseOutcome
  | fuelOut (emitted : List URL) : TraverseOutcome
deriving DecidableEq, Repr

/-- The URLs printed by the traversal, whatever way the loop ended. -/
def TraverseOutcome.emitted : TraverseOutcome → List URL
  | .done em => em
  | .crashed em _ => em
  | .fuelOut em => em

/-- Abstract Link Source: what `get_links` returns for a URL — a raised
exception, Python `None`, or a list of links. -/
abbrev LinkSourceFn := URL → Except PyError (Option (List URL))

/-- Embeds the `while queue` loop of `depth_first_seach` (src/link_extractor.py
lines 127-137).  The deque is a list whose head is its left end: `popleft`
takes the head, `appendleft` conses, so the links of a page end up reversed at
the front of the queue.  Per iteration: pop, skip if visited, mark visited,
`filter_none(get_links(url))` (an exception from either escapes the loop, and
the url — although already marked visited — is never printed, since `print`
comes last), push each link left, print the url. -/
def dfs_loop (get : LinkSourceFn) : Nat → List URL → List URL → List URL → TraverseOutcome
  | 0, _, _, emitted => .fuelOut emitted
  | _ + 1, [], _, emitted => .done emitted
  | fuel + 1, url :: rest, visited, emitted =>
    if url ∈ visited then dfs_loop get fuel rest visited emitted
    else
      match get url with
      | .error e => .crashed emitted e
      | .ok olinks =>
        match filter_none olinks with
        | .error e => .crashed emitted e
        | .ok links => dfs_loop get fuel (links.reverse ++ rest) (url :: visited) (emitted ++ [url])

/-- Embeds `depth_first_seach` (src/link_extractor.py lines 103-137): empty
visited set and queue, `queue.append(start_url)`, then the loop.  `get` is the
Link Source collaborator (`get_links`, possibly composed with a fetcher) and
`fuel` bounds the number of loop iterations modelled. -/
def depth_first_seach (get : LinkSourceFn) (fuel : Nat) (start_url : URL) : TraverseOutcome :=
  dfs_loop get fuel [start_url] [] []

/-- Embeds the `while queue` loop of `breadth_first_search`
(src/link_extractor.py lines 160-167): pop left, skip if visited, mark,
`queue.extend(get_links(url))` — extending with Python `None` raises
`TypeError`, and a `URLError` from `get_links` escapes — then print. -/
def bfs_loop (get : LinkSourceFn) : Nat → List URL → List URL → List URL → TraverseOutcome
  | 0, _, _, emitted => .fuelOut emitted
  | _ + 1, [], _, emitted => .done emitted
  | fuel + 1, url :: rest, visited, emitted =>
    if url ∈ visited then bfs_loop get fuel rest visited emitted
    else
      match get url with
      | .error e => .crashed emitted e
      | .ok none => .crashed emitted (PyError.typeError "deque.extend argument is not iterable")
      | .ok (some links) => bfs_loop get fuel (rest ++ links) (url :: visited) (emitted ++ [url])

/-- Embeds `breadth_first_search` (src/link_extractor.py lines 140-167).  The
source initialises `visited` and `queue` empty and never inserts `start_url`
(nor anything else) before the `while queue` loop, so the loop is entered with
an empty queue. -/
def breadth_first_search (get : LinkSourceFn) (fuel : Nat) (start_url : URL) : TraverseOutcome :=
  bfs_loop get fuel [] [] []

/-- The two frontier-insertion disciplines named by the specification. -/
inductive Strategy where
  | DEPTH_FIRST : Strategy
  | BREADTH_FIRST : Strategy
deriving DecidableEq, Repr

/-- Embeds the branching of `search` (src/link_extractor.py lines 176-179):
the string `"DFS"` selects the depth-first insertion (`queue.appendleft`),
every other string falls into the `else` branch selecting the breadth-first
insertion (`queue.extend`).  There is no validation of the name. -/
def strategy_branch (stategy : String) : Strategy :=
  if stategy = "DFS" then Strategy.DEPTH_FIRST else Strategy.BREADTH_FIRST

/-- The default value of the `stategy` parameter in the signature of `search`
(src/link_extractor.py line 170): `def search(start_url, stategy="DFS")`. -/
def search_default_strategy : String := "DFS"

/-- Embeds `search` (src/link_extractor.py lines 170-191).  Both branches bind
`enqueue` by CALLING the bound method with no argument — `queue.appendleft()`
on the depth-first branch, `queue.extend()` on the breadth-first branch — so
the call raises `TypeError` at that line, before `start_url` is ever enqueued
and before any URL is printed; the rest of the function (which also misspells
`enqueue` as `enque` and prints `link` instead of `url`) is unreachable. -/
def search (start_url : URL) (stategy : String := search_default_strategy) :
    Except PyError (List URL) :=
  match strategy_branch stategy with
  | Strategy.DEPTH_FIRST =>
    Except.error (PyError.typeError "appendleft() takes exactly one argument (0 given)")
  | Strategy.BREADTH_FIRST =>
    Except.error (PyError.typeError "extend() takes exactly one argument (0 given)")

/-- Concrete link graph A -> {B, C}, B -> {D} (links listed in discovery
order), with every fetch succeeding — the graph used by the spec's ordering
properties. -/
def getGraphABCD : LinkSourceFn := fun u =>
  if u = "http://h/a" then Except.ok (some ["http://h/b", "http://h/c"])
  else if u = "http://h/b" then Except.ok (some ["http://h/d"])
  else Except.ok (some [])

/-- Concrete link source where A discovers C then B, fetching B raises
`URLError`, and every other page has no links. -/
def getFetchFailure : LinkSourceFn := fun u =>
  if u = "http://h/a" then Except.ok (some ["http://h/c", "http://h/b"])
  else if u = "http://h/b" then Except.error PyError.urlError
  else Except.ok (some [])

/-- A page whose only link already lives on host `h`. -/
def pageSameHost : String := "<a href=\"http://h/b\">"

/-- Fetcher for a two-page same-host site: page A links to page B, page B is
empty, everything else fails to download. -/
def fetchSameHost : Fetcher := fun u =>
  if u = "http://h/a" then some pageSameHost
  else if u = "http://h/b" then some "" else none

/-- A page containing a single relative link. -/
def pageRelative : String := "<a href=\"x.html\">"

/-- Fetcher serving the relative-link page at `http://h/p/`. -/
def fetchRelative : Fetcher := fun u =>
  if u = "http://h/p/" then some pageRelative else none

/-- A page whose only link points at a different host. -/
def pageOffHost : String := "<a href=\"http://other/x\">"

/-- Fetcher serving the off-host-link page at `http://h/a`. -/
def fetchOffHost : Fetcher := fun u =>
  if u = "http://h/a" then some pageOffHost else none

/-- A tiny concrete link graph on two URLs, used to instantiate the
finite-graph termination theorem. -/
def linksSmall : URL → List URL := fun u =>
  if u = "http://h/a" then ["http://h/b"] else []

/-- Loop invariant of `dfs_loop`: if the emitted list has no duplicates and
every emitted URL is already marked visited, the same holds at the end —
marking happens before printing, and a visited URL is discarded at dequeue
time, so no URL is ever printed twice. -/
lemma dfs_loop_nodup (get : LinkSourceFn) :
    ∀ (fuel : Nat) (queue visited emitted : List URL),
      emitted.Nodup → (∀ u ∈ emitted, u ∈ visited) →
      ((dfs_loop get fuel queue visited emitted).emitted).Nodup := by
  intro fuel
  induction fuel with
  | zero =>
    intro queue visited emitted h1 _
    simpa [dfs_loop, TraverseOutcome.emitted] using h1
  | succ n ih =>
    intro queue visited emitted h1 h2
    cases queue with
    | nil => simpa [dfs_loop, TraverseOutcome.emitted] using h1
    | cons url rest =>
      by_cases hv : url ∈ visited
      · simpa [dfs_loop, hv] using ih rest visited emitted h1 h2
      · rcases hg : get url with e | olinks
        · simpa [dfs_loop, hv, hg, TraverseOutcome.emitted] using h1
        · rcases olinks with _ | links
          · simpa [dfs_loop, hv, hg, filter_none, TraverseOutcome.emitted] using h1
          · have hnotmem : url ∉ emitted := fun hmem => hv (h2 url hmem)
            have h1' : (emitted ++ [url]).Nodup := by
              simp [List.nodup_append, h1, hnotmem]
            have h2' : ∀ u ∈ emitted ++ [url], u ∈ url :: visited := by
              intro u hu
              rcases List.mem_append.mp hu with h | h
              · exact List.mem_cons_of_mem _ (h2 u h)
              · simp only [List.mem_singleton] at h
                simp [h]
            simpa [dfs_loop, hv, hg, filter_none] using
              ih (links.reverse ++ rest) (url :: visited) (emitted ++ [url]) h1' h2'

/-- C1: for every traversal — any start URL, any fuel, and any link graph
supplied by the Link Source, including ones that raise or return `None` —
each distinct URL appears at most once in the emitted sequence, even when it
is reachable via multiple paths: the dequeue-time check against the visited
set guarantees this despite duplicate frontier entries, in the depth-first
traversal and in the breadth-first one alike. -/
theorem no_duplicate_visit (get : LinkSourceFn) (fuel : Nat) (start_url : URL) :
    ((depth_first_seach get fuel start_url).emitted).Nodup ∧
      ((breadth_first_search get fuel start_url).emitted).Nodup := by
  constructor
  · exact dfs_loop_nodup get fuel [start_url] [] [] List.nodup_nil (by simp)
  · cases fuel with
    | zero => simp [breadth_first_search, bfs_loop, TraverseOutcome.emitted]
    | succ n => simp [breadth_first_search, bfs_loop, TraverseOutcome.emitted]

/-- C2 (code evaluated at the failing input): on the graph where page A
discovers C then B and fetching B raises `URLError`, the depth-first traversal
crashes after emitting only A — B is never emitted (its `print` comes after
the failed `get_links` call) and the still-pending C is never processed, so
the failure is propagated out of the traversal rather than absorbed. -/
theorem dfs_fetch_failure_crashes :
    depth_first_seach getFetchFailure 10 "http://h/a" =
      TraverseOutcome.crashed ["http://h/a"] PyError.urlError := rfl

/-- C3 (code evaluated at the failing input): `breadth_first_search` never
inserts the start URL into its queue, so for every link source, every start
URL and any positive fuel the loop is entered with an empty frontier and the
traversal ends immediately having emitted nothing — not `A, B, C, D`. -/
theorem bfs_emits_nothing (get : LinkSourceFn) (fuel : Nat) (start_url : URL) :
    breadth_first_search get (fuel + 1) start_url = TraverseOutcome.done [] := rfl

/-- C4 counterexample: the default value of the strategy parameter of `search`
selects the depth-first branch, not BREADTH_FIRST. -/
theorem search_default_not_breadth_first :
    strategy_branch search_default_strategy ≠ Strategy.BREADTH_FIRST := by decide

/-- C4 (amended): when no strategy name is supplied to `search`, the parameter
defaults to the string "DFS", which selects the DEPTH_FIRST branch. -/
theorem search_default_is_depth_first :
    strategy_branch search_default_strategy = Strategy.DEPTH_FIRST ∧
      ∀ u : URL, search u = search u search_default_strategy :=
  ⟨rfl, fun _ => rfl⟩

/-- C5 counterexample: invoking `search` with the unrecognized strategy name
"XYZ" does not fail with an `UnknownStrategy` error. -/
theorem search_unknown_no_unknown_strategy_error :
    search "http://h/a" "XYZ" ≠ Except.error PyError.unknownStrategy := by
  intro h
  exact PyError.noConfusion (Except.error.inj h)

/-- C5 (amended): for every strategy name other than "DFS" (e.g. "XYZ"),
`search` silently falls into the breadth-first `else` branch — the source has
no strategy validation and no `UnknownStrategy` error — and then fails with a
`TypeError` (from calling `queue.extend` with no argument) before emitting any
URL. -/
theorem search_unknown_takes_breadth_first_branch (u : URL) (s : String) (hs : s ≠ "DFS") :
    search u s =
      Except.error (PyError.typeError "extend() takes exactly one argument (0 given)") := by
  simp [search, strategy_branch, hs]

/-- Witness for the amended C5 at the concrete input "XYZ". -/
theorem search_unknown_takes_breadth_first_branch_witness :
    search "http://h/a" "XYZ" =
      Except.error (PyError.typeError "extend() takes exactly one argument (0 given)") :=
  search_unknown_takes_breadth_first_branch "http://h/a" "XYZ" (by decide)

/-- C7: on the link graph A -> {B, C}, B -> {D}, with B discovered (hence
pushed) before C, the depth-first traversal emits A, C, B, D — the most
recently pushed frontier entry is explored next, so siblings discovered
together are explored in reverse discovery order. -/
theorem dfs_order_most_recent_first :
    depth_first_seach getGraphABCD 10 "http://h/a" =
      TraverseOutcome.done ["http://h/a", "http://h/c", "http://h/b", "http://h/d"] := rfl

/-- The host filter of `get_links`: whenever `get_links` returns a list of
links (rather than raising or returning `None`), every link in it has the
hostname of the page it was extracted from. -/
lemma get_links_same_host (fetch : Fetcher) (url : URL) (ls : List URL)
    (h : get_links fetch url = Except.ok (some ls)) :
    ∀ v ∈ ls, hostname v = hostname url := by
  intro v hv
  cases hf : fetch url with
  | none => simp [get_links, hf] at h
  | some page =>
    simp only [get_links, hf] at h
    split at h
    · simp only [Except.ok.injEq, Option.some.injEq] at h
      subst h
      exact absurd hv (List.not_mem_nil v)
    · split at h
      · simp at h
      · simp only [Except.ok.injEq, Option.some.injEq] at h
        subst h
        exact of_decide_eq_true (List.mem_filter.mp hv).2

/-- Loop invariant of `dfs_loop` for a link source whose returned links always
live on the host of the page they came from: if every queued and every emitted
URL has hostname `h`, so does every URL emitted by the rest of the run. -/
lemma dfs_loop_same_host (get : LinkSourceFn) (h : Option String)
    (hget : ∀ url ls, get url = Except.ok (some ls) → ∀ v ∈ ls, hostname v = hostname url) :
    ∀ (fuel : Nat) (queue visited emitted : List URL),
      (∀ u ∈ queue, hostname u = h) → (∀ u ∈ emitted, hostname u = h) →
      ∀ u ∈ ((dfs_loop get fuel queue visited emitted).emitted), hostname u = h := by
  intro fuel
  induction fuel with
  | zero =>
    intro queue visited emitted _ he u hu
    exact he u hu
  | succ n ih =>
    intro queue visited emitted hq he u hu
    cases queue with
    | nil => exact he u hu
    | cons url rest =>
      by_cases hv : url ∈ visited
      · rw [show dfs_loop get (n + 1) (url :: rest) visited emitted =
            dfs_loop get n rest visited emitted by simp [dfs_loop, hv]] at hu
        exact ih rest visited emitted (fun x hx => hq x (List.mem_cons_of_mem _ hx)) he u hu
      · have hurl : hostname url = h := hq url (List.mem_cons_self url rest)
        rcases hg : get url with e | olinks
        · rw [show dfs_loop get (n + 1) (url :: rest) visited emitted =
              TraverseOutcome.crashed emitted e by simp [dfs_loop, hv, hg]] at hu
          exact he u hu
        · rcases olinks with _ | links
          · rw [show dfs_loop get (n + 1) (url :: rest) visited emitted =
                TraverseOutcome.crashed emitted
                  (PyError.typeError "argument of type NoneType is not iterable")
                by simp [dfs_loop, hv, hg, filter_none]] at hu
            exact he u hu
          · rw [show dfs_loop get (n + 1) (url :: rest) visited emitted =
                dfs_loop get n (links.reverse ++ rest) (url :: visited) (emitted ++ [url])
                by simp [dfs_loop, hv, hg, filter_none]] at hu
            refine ih (links.reverse ++ rest) (url :: visited) (emitted ++ [url]) ?_ ?_ u hu
            · intro x hx
              rcases List.mem_append.mp hx with hx | hx
              · rw [hget url links hg x (List.mem_reverse.mp hx)]
                exact hurl
              · exact hq x (List.mem_cons_of_mem _ hx)
            · intro x hx
              rcases List.mem_append.mp hx with hx | hx
              · exact he x hx
              · simp only [List.mem_singleton] at hx
                rw [hx]
                exact hurl

/-- C6: in a depth-first traversal driven by the real `get_links` over any
fetcher, every emitted URL — the start URL included, hence in particular
every other one — has the same hostname as the start URL: `get_links` keeps
only links whose parsed hostname equals that of the page being expanded, and
only returned links ever enter the frontier. -/
theorem same_host_restriction (fetch : Fetcher) (fuel : Nat) (start_url : URL) (u : URL)
    (hu : u ∈ ((depth_first_seach (get_links fetch) fuel start_url).emitted)) :
    hostname u = hostname start_url := by
  refine dfs_loop_same_host (get_links fetch) (hostname start_url)
    (get_links_same_host fetch) fuel [start_url] [] [] ?_ ?_ u hu
  · intro x hx
    simp only [List.mem_singleton] at hx
    rw [hx]
  · intro x hx
    exact absurd hx (List.not_mem_nil x)

/-- Witness for C6: on the concrete two-page site, `http://h/b` is emitted by
the traversal started at `http://h/a`, and its hostname agrees with the start
URL's. -/
theorem same_host_restriction_witness : hostname "http://h/b" = hostname "http://h/a" :=
  same_host_restriction fetchSameHost 10 "http://h/a" "http://h/b" (by decide)

/-- C8 (code evaluated at the failing input): `extract_links` resolves the
relative reference "x.html" with `urljoin(page, link)` where `page` is the
HTML content — the page's URL is never passed to the resolution — so the link
stays the relative string "x.html" instead of becoming an absolute URL on
host `h`; `get_links` for the page at `http://h/p/` then drops it at the host
filter and (via `or None`) returns `None`. -/
theorem relative_link_not_resolved_against_page_url :
    extract_links (some pageRelative) = ["x.html"] ∧
      get_links fetchRelative "http://h/p/" = Except.ok none := by
  constructor
  · rfl
  · rfl

/-- If a page downloads and its extracted link list is non-empty but no link
survives the same-host filter, `get_links` returns Python `None` — the
trailing `or None` — rather than an empty list. -/
lemma get_links_or_none (fetch : Fetcher) (page_url : URL) (page : String)
    (hfetch : fetch page_url = some page)
    (hne : extract_links (some page) ≠ [])
    (hoff : ∀ l ∈ extract_links (some page), ¬ hostname l = hostname page_url) :
    get_links fetch page_url = Except.ok none := by
  have hfilter : (extract_links (some page)).filter
      (fun link => decide (hostname link = hostname page_url)) = [] := by
    rw [List.filter_eq_nil_iff]
    intro a ha
    simpa using hoff a ha
  simp only [get_links, hfetch]
  rw [if_neg hne, hfilter]
  simp

/-- C10: for every `page_url` whose page downloads successfully and yields a
non-empty extracted link list in which no link's hostname equals the
hostname of `page_url`, `get_links` returns `None` rather than an empty list
(the trailing `or None`), even though an empty extracted link list yields
`[]` — so the caller cannot rely on always receiving a sequence. -/
theorem get_links_offhost_returns_none (fetch : Fetcher) (page_url : URL) (page : String)
    (hfetch : fetch page_url = some page)
    (hne : extract_links (some page) ≠ [])
    (hoff : ∀ l ∈ extract_links (some page), ¬ hostname l = hostname page_url) :
    get_links fetch page_url = Except.ok none ∧
      ∀ (page2 : String), extract_links (some page2) = [] →
        get_links (fun _ => some page2) page_url = Except.ok (some []) := by
  constructor
  · exact get_links_or_none fetch page_url page hfetch hne hoff
  · intro page2 h2
    simp [get_links, h2]

/-- Witness for C10: the page at `http://h/a` extracts exactly one link, on
host `other`, and `get_links` returns `None` for it. -/
theorem get_links_offhost_returns_none_witness :
    get_links fetchOffHost "http://h/a" = Except.ok none ∧
      ∀ (page2 : String), extract_links (some page2) = [] →
        get_links (fun _ => some page2) "http://h/a" = Except.ok (some []) :=
  get_links_offhost_returns_none fetchOffHost "http://h/a" pageOffHost rfl
    (by decide) (by decide)

/-- Every URL the depth-first loop emits lies in any set `V` that contains the
queued URLs, contains the already-emitted ones, and is closed under the link
map — links never leave the graph. -/
lemma dfs_loop_emitted_mem (links : URL → List URL) (V : Finset URL)
    (hcl : ∀ u ∈ V, ∀ v ∈ links u, v ∈ V) :
    ∀ (fuel : Nat) (queue visited emitted : List URL),
      (∀ u ∈ queue, u ∈ V) → (∀ u ∈ emitted, u ∈ V) →
      ∀ u ∈ ((dfs_loop (fun w => Except.ok (some (links w))) fuel queue visited
        emitted).emitted), u ∈ V := by
  intro fuel
  induction fuel with
  | zero =>
    intro queue visited emitted _ he u hu
    exact he u hu
  | succ n ih =>
    intro queue visited emitted hq he u hu
    cases queue with
    | nil => exact he u hu
    | cons url rest =>
      by_cases hv : url ∈ visited
      · rw [show dfs_loop (fun w => Except.ok (some (links w))) (n + 1) (url :: rest)
            visited emitted = dfs_loop (fun w => Except.ok (some (links w))) n rest
            visited emitted by simp [dfs_loop, hv]] at hu
        exact ih rest visited emitted (fun x hx => hq x (List.mem_cons_of_mem _ hx)) he u hu
      · have hUV : url ∈ V := hq url (List.mem_cons_self url rest)
        rw [show dfs_loop (fun w => Except.ok (some (links w))) (n + 1) (url :: rest)
            visited emitted = dfs_loop (fun w => Except.ok (some (links w))) n
            ((links url).reverse ++ rest) (url :: visited) (emitted ++ [url])
            by simp [dfs_loop, hv, filter_none]] at hu
        refine ih ((links url).reverse ++ rest) (url :: visited) (emitted ++ [url]) ?_ ?_ u hu
        · intro x hx
          rcases List.mem_append.mp hx with hx | hx
          · exact hcl url hUV x (List.mem_reverse.mp hx)
          · exact hq x (List.mem_cons_of_mem _ hx)
        · intro x hx
          rcases List.mem_append.mp hx with hx | hx
          · exact he x hx
          · simp only [List.mem_singleton] at hx
            rw [hx]
            exact hUV

/-- Termination measure for the depth-first loop over a finite closed graph
`V` with per-page link count bounded by `L`: each iteration either pops a
visited URL (the queue shrinks) or visits a fresh member of `V` (the count of
unvisited members of `V` drops, paying for the at most `L` pushed links), so
the measure `queue.length + unvisited * (L + 1)` strictly decreases and any
fuel above the initial measure reaches `done`. -/
lemma dfs_loop_total_done (links : URL → List URL) (V : Finset URL) (L : Nat)
    (hcl : ∀ u ∈ V, ∀ v ∈ links u, v ∈ V)
    (hL : ∀ u ∈ V, (links u).length ≤ L) :
    ∀ (fuel : Nat) (queue visited emitted : List URL),
      (∀ u ∈ queue, u ∈ V) →
      queue.length + (V.filter (fun v => v ∉ visited)).card * (L + 1) < fuel →
      ∃ em, dfs_loop (fun w => Except.ok (some (links w))) fuel queue visited emitted =
        TraverseOutcome.done em := by
  intro fuel
  induction fuel with
  | zero =>
    intro queue visited emitted _ hm
    exact absurd hm (Nat.not_lt_zero _)
  | succ n ih =>
    intro queue visited emitted hq hm
    cases queue with
    | nil => exact ⟨emitted, rfl⟩
    | cons url rest =>
      by_cases hv : url ∈ visited
      · obtain ⟨em, hem⟩ := ih rest visited emitted
          (fun x hx => hq x (List.mem_cons_of_mem _ hx))
          (by simp only [List.length_cons] at hm; omega)
        exact ⟨em, by simpa [dfs_loop, hv] using hem⟩
      · have hUV : url ∈ V := hq url (List.mem_cons_self url rest)
        have hmemf : url ∈ V.filter (fun v => v ∉ visited) := Finset.mem_filter.mpr ⟨hUV, hv⟩
        have hpos : 0 < (V.filter (fun v => v ∉ visited)).card :=
          Finset.card_pos.mpr ⟨url, hmemf⟩
        have hfe : V.filter (fun v => v ∉ (url :: visited)) =
            (V.filter (fun v => v ∉ visited)).erase url := by
          ext x
          simp only [Finset.mem_filter, Finset.mem_erase, List.mem_cons]
          tauto
        have hcard : (V.filter (fun v => v ∉ (url :: visited))).card =
            (V.filter (fun v => v ∉ visited)).card - 1 := by
          rw [hfe, Finset.card_erase_of_mem hmemf]
        have hlen : (links url).length ≤ L := hL url hUV
        obtain ⟨em, hem⟩ := ih ((links url).reverse ++ rest) (url :: visited) (emitted ++ [url])
          (by
            intro x hx
            rcases List.mem_append.mp hx with hx | hx
            · exact hcl url hUV x (List.mem_reverse.mp hx)
            · exact hq x (List.mem_cons_of_mem _ hx))
          (by
            rw [hcard, List.length_append, List.length_reverse, Nat.sub_mul, one_mul]
            simp only [List.length_cons] at hm
            have h2 : L + 1 ≤ (V.filter (fun v => v ∉ visited)).card * (L + 1) :=
              Nat.le_mul_of_pos_left (L + 1) hpos
            generalize (V.filter (fun v => v ∉ visited)).card * (L + 1) = M at hm h2 ⊢
            omega)
        exact ⟨em, by simpa [dfs_loop, hv, filter_none] using hem⟩

/-- C9: for every finite same-host link graph — a finite set `V` of URLs
containing the start URL and closed under the link map, with every fetch
succeeding — the depth-first traversal loop terminates: some fuel suffices to
reach `done`, and the number of visited (emitted) URLs never exceeds the
number of nodes of the graph. -/
theorem dfs_terminates_on_finite_graph (links : URL → List URL) (V : Finset URL)
    (start_url : URL) (hstart : start_url ∈ V)
    (hcl : ∀ u ∈ V, ∀ v ∈ links u, v ∈ V) :
    ∃ fuel emitted,
      depth_first_seach (fun w => Except.ok (some (links w))) fuel start_url =
        TraverseOutcome.done emitted ∧ emitted.length ≤ V.card := by
  classical
  set L := V.sup (fun u => (links u).length) with hLdef
  have hL : ∀ u ∈ V, (links u).length ≤ L := by
    intro u hu
    rw [hLdef]
    exact Finset.le_sup (f := fun u => (links u).length) hu
  set fuel := 2 + (V.filter (fun v => v ∉ ([] : List URL))).card * (L + 1) with hfuel
  obtain ⟨em, hem⟩ := dfs_loop_total_done links V L hcl hL fuel [start_url] [] []
    (by
      intro x hx
      simp only [List.mem_singleton] at hx
      rw [hx]
      exact hstart)
    (by rw [hfuel]; simp only [List.length_singleton]; omega)
  have hdfs : ((dfs_loop (fun w => Except.ok (some (links w))) fuel
      [start_url] [] []).emitted) = em := by
    rw [hem]
    rfl
  have hnd : em.Nodup := by
    have h := dfs_loop_nodup (fun w => Except.ok (some (links w))) fuel [start_url] [] []
      List.nodup_nil (fun u hu => absurd hu (List.not_mem_nil u))
    rwa [hdfs] at h
  have hmem : ∀ u ∈ em, u ∈ V := by
    have h := dfs_loop_emitted_mem links V hcl fuel [start_url] [] []
      (by
        intro x hx
        simp only [List.mem_singleton] at hx
        rw [hx]
        exact hstart)
      (fun u hu => absurd hu (List.not_mem_nil u))
    rwa [hdfs] at h
  refine ⟨fuel, em, hem, ?_⟩
  calc em.length = em.toFinset.card := by rw [List.toFinset_card_of_nodup hnd]
    _ ≤ V.card := Finset.card_le_card (fun x hx => hmem x (List.mem_toFinset.mp hx))

/-- Witness for C9 on a concrete two-node graph. -/
theorem dfs_terminates_on_finite_graph_witness :
    ∃ fuel emitted,
      depth_first_seach (fun w => Except.ok (some (linksSmall w))) fuel "http://h/a" =
        TraverseOutcome.done emitted ∧
        emitted.length ≤ ({"http://h/a", "http://h/b"} : Finset URL).card :=
  dfs_terminates_on_finite_graph linksSmall {"http://h/a", "http://h/b"} "http://h/a"
    (by decide) (by decide)
